import Mathlib

/-!
# rfsnotify: recursive watches on top of fsnotify

A shallow embedding of `src/rfsnotify.go`.

The program is a thin layer over three outside collaborators, which are modelled as
follows.

* `fsnotify.Watcher` (the primitive watch service) is its set of watched names
  (`RWatcher.watches`).  `Add` either fails with the error the `World` dictates for that name
  and leaves the set alone, or puts the name in the set.  `Remove` takes a watched name out
  and fails on a name that is not watched.
* `os.Stat`, `os.Lstat` and the directory reads done by `filepath.Walk` are answered by a
  `World`: the answer of `os.Stat` on the event's name, and the tree that `filepath.Walk`
  sees below the walked root (`Root`, `Listing`).
* Go channels with a receiver always ready are modelled by the `trace` of the state: a send
  appends one `Action`.  A send that blocks for want of a receiver is outside the model.

Every call on the primitive service, every send and every close is recorded, in program
order, in `RWatcher.trace`.
-/

namespace Rfsnotify

/-! ## Errors, paths, events -/

/-- An error reported by the operating system or by fsnotify, identified by a code. -/
abbrev OsErr := Nat

/-- Go `error` values that flow through `filepath.Walk`: the two sentinels of
`path/filepath`, and the errors of the operating system and of fsnotify. -/
inductive Error where
  | SkipDir : Error
  | SkipAll : Error
  | sys (code : OsErr) : Error
  deriving DecidableEq, Repr

abbrev Path := String

/-- The `filepath.Join` of a clean directory path and one entry name. -/
def Join (dir : Path) (name : String) : Path := dir ++ "/" ++ name

/-- The `fsnotify.Op` bit `Create`. -/
def fsnotify.Create : Nat := 1
/-- The `fsnotify.Op` bit `Write`. -/
def fsnotify.Write : Nat := 2
/-- The `fsnotify.Op` bit `Remove`. -/
def fsnotify.Remove : Nat := 4
/-- The `fsnotify.Op` bit `Rename`. -/
def fsnotify.Rename : Nat := 8
/-- The `fsnotify.Op` bit `Chmod`. -/
def fsnotify.Chmod : Nat := 16

/-- The `fsnotify.Event` record. -/
structure Event where
  Name : Path
  Op : Nat
  deriving DecidableEq, Repr

/-- The part of `os.FileInfo` the program reads. -/
structure FileInfo where
  IsDir : Bool
  deriving DecidableEq, Repr

/-! ## The filesystem as `filepath.Walk` sees it -/

/-- The entries of one directory, in the order `readDirNames` returns them.  Each entry
carries what `lstat` says of it; a directory carries the outcome of reading it (an error,
or its own entries). -/
inductive Listing where
  | nil : Listing
  | file (name : String) (rest : Listing) : Listing
  | gone (name : String) (err : OsErr) (rest : Listing) : Listing
  | dir (name : String) (readErr : Option OsErr) (kids : Listing) (rest : Listing) : Listing
  deriving Repr

/-- What the walked root is: `lstat` fails, or it is not a directory (a regular file, or a
symbolic link, which `lstat` does not follow), or it is a directory with the outcome of
reading it. -/
inductive Root where
  | gone (err : OsErr) : Root
  | file : Root
  | dir (readErr : Option OsErr) (kids : Listing) : Root
  deriving Repr

/-- The answers of the outside world while one operation runs: one call of a method, or
one iteration of the loop of `start`.  The answer of `os.Stat` and the tree found by
`filepath.Walk` are independent: they can disagree, as they do for a symbolic link to a
directory or when the filesystem changes between the two calls. -/
structure World where
  /-- the result of `os.Stat` on the name asked about: an error, or whether it is a directory -/
  stat : Except OsErr FileInfo
  /-- the tree `filepath.Walk` finds at the walked root -/
  tree : Root
  /-- the error `fsnotify.Watcher.Add` gives for a name, if any -/
  addErr : Path → Option OsErr

/-- `os.Stat` succeeds and reports a directory. -/
def World.statIsDir (w : World) : Bool :=
  match w.stat with
  | .ok info => info.IsDir
  | .error _ => false

/-- `os.Stat` fails. -/
def World.statFails (w : World) : Bool :=
  match w.stat with
  | .ok _ => false
  | .error _ => true

/-! ## State -/

/-- One observable action of the program. -/
inductive Action where
  | fsAdd (name : Path) (result : Option Error) : Action
  | fsRemove (name : Path) (result : Option Error) : Action
  | fsClose : Action
  | sendEvent (e : Event) : Action
  | sendError (err : Error) : Action
  | closeEvents : Action
  | closeErrors : Action
  | closeDone : Action
  deriving DecidableEq, Repr

/-- The struct `RWatcher`, with the watches of its `fsnotify` field and the state of its
channels and of its goroutine. -/
structure RWatcher where
  /-- the names registered with `m.fsnotify` -/
  watches : List Path
  /-- every action so far, oldest first -/
  trace : List Action
  /-- the goroutine `m.start` is in its loop -/
  running : Bool
  /-- `m.fsnotify` has been closed -/
  fsClosed : Bool
  /-- `m.Events` has been closed -/
  eventsClosed : Bool
  /-- `m.Errors` has been closed -/
  errorsClosed : Bool
  /-- `m.done` has been closed -/
  doneClosed : Bool
  deriving Repr

/-- The events sent on `m.Events`, oldest first. -/
def RWatcher.sentEvents (s : RWatcher) : List Event :=
  s.trace.filterMap fun a => match a with
    | .sendEvent e => some e
    | _ => none

/-- The errors sent on `m.Errors`, oldest first. -/
def RWatcher.sentErrors (s : RWatcher) : List Error :=
  s.trace.filterMap fun a => match a with
    | .sendError e => some e
    | _ => none

/-- Append one action to the trace. -/
def RWatcher.log (s : RWatcher) (a : Action) : RWatcher := { s with trace := s.trace ++ [a] }

/-! ## The primitive watch service -/

/-- The error of `fsnotify.Watcher.Remove` on a name that is not watched. -/
def errNonExistentWatch : OsErr := 0

/-- The call `m.fsnotify.Add(name)`. -/
def fsnotifyAdd (w : World) (s : RWatcher) (name : Path) : RWatcher × Option Error :=
  match w.addErr name with
  | some e => (s.log (.fsAdd name (some (.sys e))), some (.sys e))
  | none =>
    ({ s with watches := if name ∈ s.watches then s.watches else s.watches ++ [name] }.log
        (.fsAdd name none), none)

/-- The call `m.fsnotify.Remove(name)`. -/
def fsnotifyRemove (s : RWatcher) (name : Path) : RWatcher × Option Error :=
  if name ∈ s.watches then
    ({ s with watches := s.watches.filter (fun q => q ≠ name) }.log (.fsRemove name none), none)
  else
    (s.log (.fsRemove name (some (.sys errNonExistentWatch))), some (.sys errNonExistentWatch))

/-- The call `m.fsnotify.Close()`: all watches are removed. -/
def fsnotifyClose (s : RWatcher) : RWatcher :=
  { s with watches := [], fsClosed := true }.log .fsClose

/-! ## `filepath.Walk` -/

/-- The type `filepath.WalkFunc`, over a threaded state. -/
abbrev WalkFunc (σ : Type) := Path → Option FileInfo → Option Error → σ → σ × Option Error

/-- The directory branch of `walk`, as in the current standard library: the directory is
read first and the outcome `readErr` of `readDirNames` is handed to `walkFn` in its one
call on the directory; the entries are walked (`loop`) only when both gave no error. -/
def walkDir {σ : Type} (walkFn : WalkFunc σ) (path : Path) (readErr : Option OsErr)
    (loop : σ → σ × Option Error) (s : σ) : σ × Option Error :=
  let err : Option Error := readErr.map Error.sys
  match walkFn path (some ⟨true⟩) err s with
  | (s1, err1) =>
    if err ≠ none ∨ err1 ≠ none then (s1, err1) else loop s1

/-- The loop `for _, name := range names` of `walk` over the entries of directory `path`,
with the recursive `walk` of each entry unfolded in place. -/
def walkLoop {σ : Type} (walkFn : WalkFunc σ) (path : Path) : Listing → σ → σ × Option Error
  | .nil, s => (s, none)
  | .gone name e rest, s =>
    match walkFn (Join path name) none (some (.sys e)) s with
    | (s1, some err) => if err ≠ Error.SkipDir then (s1, some err) else walkLoop walkFn path rest s1
    | (s1, none) => walkLoop walkFn path rest s1
  | .file name rest, s =>
    match walkFn (Join path name) (some ⟨false⟩) none s with
    | (s1, some err) => (s1, some err)
    | (s1, none) => walkLoop walkFn path rest s1
  | .dir name readErr kids rest, s =>
    match walkDir walkFn (Join path name) readErr (walkLoop walkFn (Join path name) kids) s with
    | (s1, some err) => if err ≠ Error.SkipDir then (s1, some err) else walkLoop walkFn path rest s1
    | (s1, none) => walkLoop walkFn path rest s1

/-- The function `filepath.Walk(root, fn)`. -/
def Walk {σ : Type} (fn : WalkFunc σ) (root : Path) (t : Root) (s : σ) : σ × Option Error :=
  let r : σ × Option Error :=
    match t with
    | .gone e => fn root none (some (.sys e)) s
    | .file => fn root (some ⟨false⟩) none s
    | .dir readErr kids => walkDir fn root readErr (walkLoop fn root kids) s
  if r.2 = some Error.SkipDir ∨ r.2 = some Error.SkipAll then (r.1, none) else r

/-! ## The program -/

/-- The function literal handed to `filepath.Walk` in `watchRecursive`. -/
def watchFn (w : World) : WalkFunc RWatcher := fun walkPath fi err s =>
  match err with
  | some e => (s, some e)
  | none =>
    match fi with
    | some info =>
      if info.IsDir then
        match fsnotifyAdd w s walkPath with
        | (s1, some e) => (s1, some e)
        | (s1, none) => (s1, none)
      else (s, none)
    | none => (s, none)

/-- The method `RWatcher.watchRecursive`. -/
def RWatcher.watchRecursive (w : World) (s : RWatcher) (path : Path) : RWatcher × Option Error :=
  Walk (watchFn w) path w.tree s

/-- The function `NewWatcher`; `fsErr` is the error of `fsnotify.NewWatcher`, if any. -/
def NewWatcher (fsErr : Option OsErr) : Except Error RWatcher :=
  match fsErr with
  | some e => .error (.sys e)
  | none => .ok
      { watches := [], trace := [], running := true, fsClosed := false,
        eventsClosed := false, errorsClosed := false, doneClosed := false }

/-- The method `RWatcher.Add`. -/
def RWatcher.Add (w : World) (s : RWatcher) (name : Path) : RWatcher × Option Error :=
  fsnotifyAdd w s name

/-- The method `RWatcher.AddRecursive`. -/
def RWatcher.AddRecursive (w : World) (s : RWatcher) (name : Path) : RWatcher × Option Error :=
  match RWatcher.watchRecursive w s name with
  | (s1, some err) => (s1, some err)
  | (s1, none) => (s1, none)

/-- The method `RWatcher.Remove`. -/
def RWatcher.Remove (s : RWatcher) (name : Path) : RWatcher × Option Error :=
  fsnotifyRemove s name

/-- The `select` case that is ready in one iteration of the loop of `start`. -/
inductive Ready where
  | event (w : World) (e : Event) : Ready
  | error (err : Error) : Ready
  | done : Ready

/-- The first part of `case e := <-m.fsnotify.Events`: the `os.Stat` of the name and, for
a directory named by an event with the `Create` bit, the recursive registration, whose
result is dropped. -/
def RWatcher.reactiveAdd (w : World) (s : RWatcher) (e : Event) : RWatcher :=
  match w.stat with
  | .ok info =>
    if info.IsDir then
      if e.Op &&& fsnotify.Create ≠ 0 then (RWatcher.watchRecursive w s e.Name).1 else s
    else s
  | .error _ => s

/-- The second part of `case e := <-m.fsnotify.Events`: for an event with the `Remove` bit,
the primitive `Remove` of the name, whose result is dropped. -/
def RWatcher.reactiveRemove (s : RWatcher) (e : Event) : RWatcher :=
  if e.Op &&& fsnotify.Remove ≠ 0 then (fsnotifyRemove s e.Name).1 else s

/-- The body of `case e := <-m.fsnotify.Events` up to, not including, the send. -/
def RWatcher.maintain (w : World) (s : RWatcher) (e : Event) : RWatcher :=
  (s.reactiveAdd w e).reactiveRemove e

/-- One iteration of the loop of `start`, for the case that is ready.  After the loop has
returned there is no iteration. -/
def RWatcher.step (s : RWatcher) (r : Ready) : RWatcher :=
  if s.running then
    match r with
    | .event w e => (RWatcher.maintain w s e).log (.sendEvent e)
    | .error err => s.log (.sendError err)
    | .done =>
      let s1 := fsnotifyClose s
      let s2 := { s1 with eventsClosed := true }.log .closeEvents
      let s3 := { s2 with errorsClosed := true }.log .closeErrors
      { s3 with running := false, doneClosed := true }.log .closeDone
  else s

/-- The method `RWatcher.start`: the loop over the cases that become ready, in order. -/
def RWatcher.start (s : RWatcher) (rs : List Ready) : RWatcher := rs.foldl RWatcher.step s

/-- How a call returns to its caller. -/
inductive Outcome where
  | returned (err : Option Error) : Outcome
  | panicked : Outcome
  | blocked : Outcome
  deriving DecidableEq, Repr

/-- The method `RWatcher.Close`: the send `m.done <- true` panics on a closed channel, is
received by the loop when it runs, and has no receiver otherwise. -/
def RWatcher.Close (s : RWatcher) : RWatcher × Outcome :=
  if s.doneClosed then (s, .panicked)
  else if s.running then (RWatcher.step s .done, .returned none)
  else (s, .blocked)

/-! ## The walk order, for stating what a walk does -/

/-- What the walk learns of one entry it visits: `lstat` failed, or the entry is not a
directory, or it is a directory with the outcome of reading it. -/
inductive Kind where
  | gone (err : OsErr) : Kind
  | file : Kind
  | dir (readErr : Option OsErr) : Kind
  deriving DecidableEq, Repr

/-- The entries below directory `path`, in walk order (each directory before its own
entries, the entries of a directory in listing order).  A directory that cannot be read
has no entries. -/
def Listing.entries (path : Path) : Listing → List (Path × Kind)
  | .nil => []
  | .file name rest => (Join path name, Kind.file) :: Listing.entries path rest
  | .gone name e rest => (Join path name, Kind.gone e) :: Listing.entries path rest
  | .dir name (some e) _ rest =>
    (Join path name, Kind.dir (some e)) :: Listing.entries path rest
  | .dir name none kids rest =>
    (Join path name, Kind.dir none) ::
      (Listing.entries (Join path name) kids ++ Listing.entries path rest)

/-- The entries of the subtree rooted at `root`, the root first, in walk order. -/
def Root.entries (root : Path) : Root → List (Path × Kind)
  | .gone e => [(root, Kind.gone e)]
  | .file => [(root, Kind.file)]
  | .dir (some e) _ => [(root, Kind.dir (some e))]
  | .dir none kids => (root, Kind.dir none) :: Listing.entries root kids

/-- The directories among some entries, in order. -/
def dirPaths (es : List (Path × Kind)) : List Path :=
  es.filterMap fun x => match x.2 with
    | .dir _ => some x.1
    | _ => none

/-- The error an entry makes the walk of `watchRecursive` fail with, if any: a traversal
error (`lstat` or the directory read), or the error of the primitive `Add` on a directory. -/
def failure (w : World) (x : Path × Kind) : Option OsErr :=
  match x.2 with
  | .gone e => some e
  | .file => none
  | .dir (some e) => some e
  | .dir none => w.addErr x.1

/-- Visiting entries one after the other, stopping at the first that fails: each readable
directory is handed to the primitive `Add`. -/
def visitAll (w : World) : List (Path × Kind) → RWatcher → RWatcher × Option Error
  | [], s => (s, none)
  | (_, .gone e) :: _, s => (s, some (.sys e))
  | (_, .file) :: es, s => visitAll w es s
  | (_, .dir (some e)) :: _, s => (s, some (.sys e))
  | (p, .dir none) :: es, s =>
    match fsnotifyAdd w s p with
    | (s1, some e) => (s1, some e)
    | (s1, none) => visitAll w es s1

/-- The watch set after the primitive `Add` has succeeded on each of `ps` in turn. -/
def addAll (W : List Path) (ps : List Path) : List Path :=
  ps.foldl (fun acc p => if p ∈ acc then acc else acc ++ [p]) W

/-- The actions one iteration of the loop adds to the trace. -/
def RWatcher.stepActions (s : RWatcher) (r : Ready) : List Action :=
  (s.step r).trace.drop s.trace.length

/-- The loop returns on this case. -/
def Ready.isDone : Ready → Bool
  | .done => true
  | _ => false

/-- The events among the cases handed to the loop, in order. -/
def eventsOf (rs : List Ready) : List Event :=
  rs.filterMap fun r => match r with
    | .event _ e => some e
    | _ => none

/-! ## Sample worlds and states -/

/-- A watcher just made by `NewWatcher`. -/
def fresh : RWatcher :=
  { watches := [], trace := [], running := true, fsClosed := false,
    eventsClosed := false, errorsClosed := false, doneClosed := false }

/-- Directory `/r` holds the directory `a` and the file `f`; every `Add` succeeds. -/
def worldR : World :=
  { stat := .ok ⟨true⟩
    tree := .dir none (.dir "a" none .nil (.file "f" .nil))
    addErr := fun _ => none }

/-- The watcher after `AddRecursive("/r")` in `worldR`: it watches `/r` and `/r/a`. -/
def watchingR : RWatcher := (RWatcher.AddRecursive worldR fresh "/r").1

/-- A new, empty directory at the name asked about; every `Add` succeeds. -/
def worldNewDir : World :=
  { stat := .ok ⟨true⟩, tree := .dir none .nil, addErr := fun _ => none }

/-- The watcher `watchingR` after the loop has handled the `Create` event of the new
directory `/r/b`: it watches `/r`, `/r/a` and `/r/b`. -/
def watchingRB : RWatcher := watchingR.step (.event worldNewDir ⟨"/r/b", fsnotify.Create⟩)

/-- Nothing is left at the name asked about: `os.Stat` and `lstat` fail with code 2. -/
def worldGone : World :=
  { stat := .error 2, tree := .gone 2, addErr := fun _ => none }

/-- Directory `/r` holds the directory `a` (with the file `f`) and the directory `b` (with
the directory `c`); the primitive `Add` of `/r/b` fails with code 28. -/
def worldFull : World :=
  { stat := .ok ⟨true⟩
    tree := .dir none
      (.dir "a" none (.file "f" .nil) (.dir "b" none (.dir "c" none .nil .nil) .nil))
    addErr := fun p => if p = "/r/b" then some 28 else none }

/-- A new directory at the name asked about that holds the directory `c`; every `Add`
succeeds. -/
def worldNewTree : World :=
  { stat := .ok ⟨true⟩, tree := .dir none (.dir "c" none .nil .nil), addErr := fun _ => none }

/-- A symbolic link to a directory at the name asked about: `os.Stat` follows the link and
reports a directory, the `lstat` of `filepath.Walk` reports an entry that is not a
directory. -/
def worldLink : World :=
  { stat := .ok ⟨true⟩, tree := .file, addErr := fun _ => none }

/-- A directory at the name asked about whose primitive `Add` fails with code 13. -/
def worldDenied : World :=
  { stat := .ok ⟨true⟩, tree := .dir none .nil, addErr := fun _ => some 13 }

/-! ## Lemmas on the primitive service -/

theorem newWatcher_fresh : NewWatcher none = .ok fresh := rfl

theorem fsnotifyAdd_ok (w : World) (s : RWatcher) (p : Path) (h : w.addErr p = none) :
    fsnotifyAdd w s p =
      ({ s with watches := if p ∈ s.watches then s.watches else s.watches ++ [p] }.log
        (.fsAdd p none), none) := by
  simp [fsnotifyAdd, h]

theorem fsnotifyAdd_err (w : World) (s : RWatcher) (p : Path) (e : OsErr)
    (h : w.addErr p = some e) :
    fsnotifyAdd w s p = (s.log (.fsAdd p (some (.sys e))), some (.sys e)) := by
  simp [fsnotifyAdd, h]

theorem mem_watches_add (W : List Path) (p q : Path) :
    q ∈ (if p ∈ W then W else W ++ [p]) ↔ q ∈ W ∨ q = p := by
  by_cases h : p ∈ W
  · simp only [h, if_true]
    constructor
    · exact Or.inl
    · rintro (h1 | h1)
      · exact h1
      · exact h1 ▸ h
  · simp [h]

/-! ## The walk of `watchRecursive` visits the entries in walk order -/

theorem mem_addAll (ps : List Path) (W : List Path) (q : Path) :
    q ∈ addAll W ps ↔ q ∈ W ∨ q ∈ ps := by
  induction ps generalizing W with
  | nil => simp [addAll]
  | cons p ps ih =>
    have h : addAll W (p :: ps) = addAll (if p ∈ W then W else W ++ [p]) ps := rfl
    rw [h, ih, mem_watches_add]
    simp only [List.mem_cons]
    tauto

theorem visitAll_append (w : World) (a b : List (Path × Kind)) (s : RWatcher) :
    visitAll w (a ++ b) s =
      match visitAll w a s with
      | (s1, none) => visitAll w b s1
      | (s1, some e) => (s1, some e) := by
  induction a generalizing s with
  | nil => simp [visitAll]
  | cons x a ih =>
    obtain ⟨p, k⟩ := x
    cases k with
    | gone e => simp [visitAll]
    | file => simpa [visitAll] using ih s
    | dir r =>
      cases r with
      | some e => simp [visitAll]
      | none =>
        simp only [List.cons_append, visitAll]
        cases h : fsnotifyAdd w s p with
        | mk s1 r1 =>
          cases r1 with
          | none => simpa using ih s1
          | some e => simp

theorem visitAll_sys (w : World) (es : List (Path × Kind)) (s : RWatcher) (err : Error)
    (h : (visitAll w es s).2 = some err) : ∃ c, err = Error.sys c := by
  induction es generalizing s with
  | nil => simp [visitAll] at h
  | cons x es ih =>
    obtain ⟨p, k⟩ := x
    cases k with
    | gone e => simp [visitAll] at h; exact ⟨e, h.symm⟩
    | file => exact ih s (by simpa [visitAll] using h)
    | dir r =>
      cases r with
      | some e => simp [visitAll] at h; exact ⟨e, h.symm⟩
      | none =>
        cases ha : w.addErr p with
        | none =>
          rw [visitAll, fsnotifyAdd_ok w s p ha] at h
          exact ih _ h
        | some e =>
          rw [visitAll, fsnotifyAdd_err w s p e ha] at h
          simp at h
          exact ⟨e, h.symm⟩

theorem walkLoop_eq (w : World) (l : Listing) (path : Path) (s : RWatcher) :
    walkLoop (watchFn w) path l s = visitAll w (l.entries path) s := by
  induction l generalizing path s with
  | nil => simp [walkLoop, Listing.entries, visitAll]
  | file name rest ih =>
    simp only [walkLoop, watchFn, Listing.entries, visitAll]
    simpa using ih path s
  | gone name e rest ih =>
    simp [walkLoop, watchFn, Listing.entries, visitAll]
  | dir name r kids rest ihk ihr =>
    cases r with
    | some e =>
      simp [walkLoop, walkDir, watchFn, Listing.entries, visitAll]
    | none =>
      simp only [walkLoop, walkDir, Listing.entries, visitAll, Option.map_none', watchFn]
      cases ha : fsnotifyAdd w s (Join path name) with
      | mk s1 r1 =>
        cases r1 with
        | some e =>
          have he : ∃ c, e = Error.sys c := by
            unfold fsnotifyAdd at ha
            cases hw : w.addErr (Join path name) with
            | none => rw [hw] at ha; simp at ha
            | some c => rw [hw] at ha; simp at ha; exact ⟨c, ha.2.symm⟩
          obtain ⟨c, rfl⟩ := he
          simp
        | none =>
          simp only [ne_eq, not_true_eq_false, or_self, if_false]
          rw [ihk, visitAll_append]
          cases hk : visitAll w (Listing.entries (Join path name) kids) s1 with
          | mk s2 r2 =>
            cases r2 with
            | none => simp [hk, ihr]
            | some e =>
              obtain ⟨c, rfl⟩ := visitAll_sys w _ s1 e (by rw [hk])
              simp [hk]

theorem watchRecursive_eq (w : World) (s : RWatcher) (path : Path) :
    RWatcher.watchRecursive w s path = visitAll w (w.tree.entries path) s := by
  unfold RWatcher.watchRecursive Walk
  cases ht : w.tree with
  | gone e => simp [watchFn, Root.entries, visitAll]
  | file => simp [watchFn, Root.entries, visitAll]
  | dir r kids =>
    cases r with
    | some e => simp [walkDir, watchFn, Root.entries, visitAll]
    | none =>
      simp only [walkDir, Root.entries, visitAll, Option.map_none', watchFn]
      cases ha : fsnotifyAdd w s path with
      | mk s1 r1 =>
        cases r1 with
        | some e =>
          have he : ∃ c, e = Error.sys c := by
            unfold fsnotifyAdd at ha
            cases hw : w.addErr path with
            | none => rw [hw] at ha; simp at ha
            | some c => rw [hw] at ha; simp at ha; exact ⟨c, ha.2.symm⟩
          obtain ⟨c, rfl⟩ := he
          simp
        | none =>
          simp only [ne_eq, not_true_eq_false, or_self, if_false]
          rw [walkLoop_eq]
          cases hk : visitAll w (Listing.entries path kids) s1 with
          | mk s2 r2 =>
            cases r2 with
            | none => simp [hk]
            | some e =>
              obtain ⟨c, rfl⟩ := visitAll_sys w _ s1 e (by rw [hk])
              simp [hk]

/-! ## What a walk leaves behind -/

theorem visitAll_ok (w : World) (es : List (Path × Kind)) (s : RWatcher)
    (h : ∀ y ∈ es, failure w y = none) :
    visitAll w es s =
      ({ s with
          watches := addAll s.watches (dirPaths es)
          trace := s.trace ++ (dirPaths es).map fun q => Action.fsAdd q none }, none) := by
  induction es generalizing s with
  | nil => simp [visitAll, dirPaths, addAll]
  | cons x es ih =>
    have hx := h x (List.mem_cons_self _ _)
    have hes : ∀ y ∈ es, failure w y = none := fun y hy => h y (List.mem_cons_of_mem _ hy)
    obtain ⟨p, k⟩ := x
    cases k with
    | gone e => simp [failure] at hx
    | file =>
      rw [visitAll, ih s hes]
      simp [dirPaths]
    | dir r =>
      cases r with
      | some e => simp [failure] at hx
      | none =>
        have ha : w.addErr p = none := by simpa [failure] using hx
        rw [visitAll, fsnotifyAdd_ok w s p ha]
        simp only []
        rw [ih _ hes]
        simp [dirPaths, addAll, RWatcher.log]

theorem visitAll_fail (w : World) (pre post : List (Path × Kind)) (x : Path × Kind)
    (err : OsErr) (s : RWatcher)
    (hpre : ∀ y ∈ pre, failure w y = none) (hx : failure w x = some err) :
    visitAll w (pre ++ x :: post) s =
      ({ s with
          watches := addAll s.watches (dirPaths pre)
          trace := s.trace ++ ((dirPaths pre).map fun q => Action.fsAdd q none) ++
            (match x.2 with
              | .dir none => [Action.fsAdd x.1 (some (Error.sys err))]
              | _ => []) }, some (Error.sys err)) := by
  rw [visitAll_append, visitAll_ok w pre s hpre]
  obtain ⟨p, k⟩ := x
  cases k with
  | gone e =>
    have : e = err := by simpa [failure] using hx
    subst this
    simp [visitAll]
  | file => simp [failure] at hx
  | dir r =>
    cases r with
    | some e =>
      have : e = err := by simpa [failure] using hx
      subst this
      simp [visitAll]
    | none =>
      have ha : w.addErr p = some err := by simpa [failure] using hx
      simp only [visitAll]
      rw [fsnotifyAdd_err w _ p err ha]
      simp [RWatcher.log]

theorem visitAll_none (w : World) (es : List (Path × Kind)) (s : RWatcher)
    (h : (visitAll w es s).2 = none) : ∀ y ∈ es, failure w y = none := by
  induction es generalizing s with
  | nil => simp
  | cons x es ih =>
    obtain ⟨p, k⟩ := x
    cases k with
    | gone e => simp [visitAll] at h
    | file =>
      intro y hy
      rcases List.mem_cons.1 hy with rfl | hy
      · simp [failure]
      · exact ih s (by simpa [visitAll] using h) y hy
    | dir r =>
      cases r with
      | some e => simp [visitAll] at h
      | none =>
        cases ha : w.addErr p with
        | some e =>
          rw [visitAll, fsnotifyAdd_err w s p e ha] at h
          simp at h
        | none =>
          rw [visitAll, fsnotifyAdd_ok w s p ha] at h
          intro y hy
          rcases List.mem_cons.1 hy with rfl | hy
          · simpa [failure] using ha
          · exact ih _ h y hy

theorem exists_first_failure (w : World) (es : List (Path × Kind))
    (h : ¬ ∀ y ∈ es, failure w y = none) :
    ∃ pre x post err, es = pre ++ x :: post ∧ (∀ y ∈ pre, failure w y = none) ∧
      failure w x = some err := by
  induction es with
  | nil => simp at h
  | cons x es ih =>
    cases hx : failure w x with
    | some err => exact ⟨[], x, es, err, rfl, by simp, hx⟩
    | none =>
      have h2 : ¬ ∀ y ∈ es, failure w y = none := by
        intro hall
        apply h
        intro y hy
        rcases List.mem_cons.1 hy with rfl | hy
        · exact hx
        · exact hall y hy
      obtain ⟨pre, y, post, err, hsplit, hpre, hy⟩ := ih h2
      refine ⟨x :: pre, y, post, err, by simp [hsplit], ?_, hy⟩
      intro z hz
      rcases List.mem_cons.1 hz with rfl | hz
      · exact hx
      · exact hpre z hz

/-- Whatever a walk meets, it only adds names to the watch set and only appends calls of the
primitive `Add` to the trace. -/
theorem visitAll_shape (w : World) (es : List (Path × Kind)) (s : RWatcher) :
    ∃ ps l, (visitAll w es s).1 =
        { s with watches := addAll s.watches ps, trace := s.trace ++ l } ∧
      (∀ a ∈ l, ∃ q r, a = Action.fsAdd q r) := by
  by_cases h : ∀ y ∈ es, failure w y = none
  · refine ⟨dirPaths es, (dirPaths es).map fun q => Action.fsAdd q none, ?_, ?_⟩
    · rw [visitAll_ok w es s h]
    · intro a ha
      obtain ⟨q, _, rfl⟩ := List.mem_map.1 ha
      exact ⟨q, none, rfl⟩
  · obtain ⟨pre, x, post, err, hsplit, hpre, hx⟩ := exists_first_failure w es h
    refine ⟨dirPaths pre, ((dirPaths pre).map fun q => Action.fsAdd q none) ++
        (match x.2 with
          | .dir none => [Action.fsAdd x.1 (some (Error.sys err))]
          | _ => []), ?_, ?_⟩
    · rw [hsplit, visitAll_fail w pre post x err s hpre hx]
      simp
    · intro a ha
      rcases List.mem_append.1 ha with ha | ha
      · obtain ⟨q, _, rfl⟩ := List.mem_map.1 ha
        exact ⟨q, none, rfl⟩
      · obtain ⟨p, k⟩ := x
        cases k with
        | gone e => simp at ha
        | file => simp at ha
        | dir r =>
          cases r with
          | some e => simp at ha
          | none =>
            simp at ha
            exact ⟨p, _, ha⟩

/-- A walk that registers anything registers its root. -/
theorem watchRecursive_root (w : World) (s : RWatcher) (p : Path) :
    (RWatcher.watchRecursive w s p).1.watches = s.watches ∨
      p ∈ (RWatcher.watchRecursive w s p).1.watches := by
  rw [watchRecursive_eq]
  cases ht : w.tree with
  | gone e => left; simp [Root.entries, visitAll]
  | file => left; simp [Root.entries, visitAll]
  | dir r kids =>
    cases r with
    | some e => left; simp [Root.entries, visitAll]
    | none =>
      cases ha : w.addErr p with
      | some e =>
        left
        simp only [Root.entries, visitAll]
        rw [fsnotifyAdd_err w s p e ha]
        simp [RWatcher.log]
      | none =>
        right
        simp only [Root.entries, visitAll]
        rw [fsnotifyAdd_ok w s p ha]
        simp only []
        obtain ⟨ps, l, hs, _⟩ := visitAll_shape w (Listing.entries p kids)
          ({ s with watches := if p ∈ s.watches then s.watches else s.watches ++ [p] }.log
            (.fsAdd p none))
        rw [hs]
        simp only [RWatcher.log]
        rw [mem_addAll]
        left
        rw [mem_watches_add]
        right; rfl

/-! ## What one iteration of the loop does -/

theorem AddRecursive_eq (w : World) (s : RWatcher) (p : Path) :
    RWatcher.AddRecursive w s p = RWatcher.watchRecursive w s p := by
  unfold RWatcher.AddRecursive
  cases h : RWatcher.watchRecursive w s p with
  | mk s1 r => cases r <;> rfl

theorem reactiveAdd_walk (w : World) (s : RWatcher) (e : Event)
    (hd : w.statIsDir = true) (hc : e.Op &&& fsnotify.Create ≠ 0) :
    s.reactiveAdd w e = (RWatcher.watchRecursive w s e.Name).1 := by
  unfold RWatcher.reactiveAdd
  unfold World.statIsDir at hd
  cases hst : w.stat with
  | error _ => rw [hst] at hd; simp at hd
  | ok info =>
    rw [hst] at hd
    simp only at hd
    simp only []
    rw [if_pos hd, if_pos hc]

theorem reactiveAdd_skip (w : World) (s : RWatcher) (e : Event)
    (h : w.statIsDir = false ∨ e.Op &&& fsnotify.Create = 0) :
    s.reactiveAdd w e = s := by
  unfold RWatcher.reactiveAdd
  unfold World.statIsDir at h
  cases hst : w.stat with
  | error _ => rfl
  | ok info =>
    rw [hst] at h
    simp only at h
    simp only []
    rcases h with h | h
    · rw [if_neg (by simp [h])]
    · by_cases hd : info.IsDir = true
      · rw [if_pos hd, if_neg (by simp [h])]
      · rw [if_neg hd]

/-- The registration part of an iteration keeps everything but the watch set and the trace,
only adds to the watch set, and appends only calls of the primitive `Add`. -/
theorem reactiveAdd_shape (w : World) (s : RWatcher) (e : Event) :
    ∃ ps l, s.reactiveAdd w e =
        { s with watches := addAll s.watches ps, trace := s.trace ++ l } ∧
      (∀ a ∈ l, ∃ q r, a = Action.fsAdd q r) := by
  by_cases h : w.statIsDir = true ∧ e.Op &&& fsnotify.Create ≠ 0
  · rw [reactiveAdd_walk w s e h.1 h.2, watchRecursive_eq]
    exact visitAll_shape w _ s
  · rw [reactiveAdd_skip w s e (by
      by_cases hd : w.statIsDir = true
      · right
        by_contra hc
        exact h ⟨hd, hc⟩
      · left
        simpa using hd)]
    exact ⟨[], [], by simp [addAll], by simp⟩

/-- The deregistration part of an iteration: the trace grows by the one call of the
primitive `Remove` when the event has the `Remove` bit, the watch set loses the name. -/
theorem reactiveRemove_set (s : RWatcher) (e : Event) (h : e.Op &&& fsnotify.Remove ≠ 0) :
    s.reactiveRemove e =
      { s with
          watches := s.watches.filter (fun q => q ≠ e.Name)
          trace := s.trace ++ [Action.fsRemove e.Name
            (if e.Name ∈ s.watches then none else some (Error.sys errNonExistentWatch))] } := by
  unfold RWatcher.reactiveRemove
  rw [if_pos h]
  unfold fsnotifyRemove
  by_cases hm : e.Name ∈ s.watches
  · simp [hm, RWatcher.log]
  · simp only [hm, if_false, RWatcher.log]
    congr 1
    symm
    rw [List.filter_eq_self]
    intro q hq
    simp only [ne_eq, decide_not, Bool.not_eq_true', decide_eq_false_iff_not]
    intro hqe
    exact hm (hqe ▸ hq)

theorem reactiveRemove_skip (s : RWatcher) (e : Event) (h : e.Op &&& fsnotify.Remove = 0) :
    s.reactiveRemove e = s := by
  unfold RWatcher.reactiveRemove
  rw [if_neg (by simp [h])]

theorem step_event (s : RWatcher) (w : World) (e : Event) (h : s.running = true) :
    s.step (.event w e) = ((s.reactiveAdd w e).reactiveRemove e).log (.sendEvent e) := by
  simp [RWatcher.step, h, RWatcher.maintain]

/-- One iteration on an event, spelled out: the registration adds names `ps` and logs the
calls `l` of the primitive `Add`; then, for an event with the `Remove` bit, the name leaves
the watch set and the call of the primitive `Remove` is logged; then the event is sent. -/
theorem step_event_shape (s : RWatcher) (w : World) (e : Event) (h : s.running = true) :
    ∃ ps l,
      s.reactiveAdd w e = { s with watches := addAll s.watches ps, trace := s.trace ++ l } ∧
      (∀ a ∈ l, ∃ q r, a = Action.fsAdd q r) ∧
      s.step (.event w e) =
        { s with
            watches :=
              if e.Op &&& fsnotify.Remove ≠ 0 then
                (addAll s.watches ps).filter (fun q => q ≠ e.Name)
              else addAll s.watches ps
            trace := s.trace ++ (l ++
              (if e.Op &&& fsnotify.Remove ≠ 0 then
                [Action.fsRemove e.Name
                  (if e.Name ∈ addAll s.watches ps then none
                    else some (Error.sys errNonExistentWatch))]
              else []) ++ [Action.sendEvent e]) } := by
  obtain ⟨ps, l, hadd, hl⟩ := reactiveAdd_shape w s e
  refine ⟨ps, l, hadd, hl, ?_⟩
  rw [step_event s w e h, hadd]
  by_cases hr : e.Op &&& fsnotify.Remove ≠ 0
  · rw [reactiveRemove_set _ e hr, if_pos hr, if_pos hr]
    simp [RWatcher.log]
  · rw [reactiveRemove_skip _ e (by simpa using hr), if_neg hr, if_neg hr]
    simp [RWatcher.log]

theorem step_event_running (s : RWatcher) (w : World) (e : Event) (h : s.running = true) :
    (s.step (.event w e)).running = true := by
  obtain ⟨ps, l, _, _, hs⟩ := step_event_shape s w e h
  rw [hs]
  exact h

theorem step_event_sentEvents (s : RWatcher) (w : World) (e : Event) (h : s.running = true) :
    (s.step (.event w e)).sentEvents = s.sentEvents ++ [e] := by
  obtain ⟨ps, l, _, hl, hs⟩ := step_event_shape s w e h
  rw [hs]
  simp only [RWatcher.sentEvents, List.filterMap_append]
  have hl0 : (l.filterMap fun a => match a with
      | .sendEvent e => some e
      | _ => none) = [] := by
    rw [List.filterMap_eq_nil_iff]
    intro a ha
    obtain ⟨q, r, rfl⟩ := hl a ha
    rfl
  by_cases hr : e.Op &&& fsnotify.Remove ≠ 0
  · simp only [hl0, if_pos hr]
    simp
  · simp only [hl0, if_neg hr]
    simp

theorem step_event_sentErrors (s : RWatcher) (w : World) (e : Event) (h : s.running = true) :
    (s.step (.event w e)).sentErrors = s.sentErrors := by
  obtain ⟨ps, l, _, hl, hs⟩ := step_event_shape s w e h
  rw [hs]
  simp only [RWatcher.sentErrors, List.filterMap_append]
  have hl0 : (l.filterMap fun a => match a with
      | .sendError e => some e
      | _ => none) = [] := by
    rw [List.filterMap_eq_nil_iff]
    intro a ha
    obtain ⟨q, r, rfl⟩ := hl a ha
    rfl
  by_cases hr : e.Op &&& fsnotify.Remove ≠ 0
  · simp only [hl0, if_pos hr]
    simp
  · simp only [hl0, if_neg hr]
    simp

theorem step_error_sentEvents (s : RWatcher) (err : Error) :
    (s.step (.error err)).sentEvents = s.sentEvents := by
  unfold RWatcher.step
  by_cases h : s.running = true
  · simp [h, RWatcher.log, RWatcher.sentEvents, List.filterMap_append]
  · simp [h]

theorem step_error_running (s : RWatcher) (err : Error) (h : s.running = true) :
    (s.step (.error err)).running = true := by
  simp [RWatcher.step, h, RWatcher.log]

theorem step_stopped (s : RWatcher) (r : Ready) (h : s.running = false) : s.step r = s := by
  simp [RWatcher.step, h]

theorem start_stopped (s : RWatcher) (rs : List Ready) (h : s.running = false) :
    s.start rs = s := by
  induction rs with
  | nil => rfl
  | cons r rs ih =>
    have : s.start (r :: rs) = (s.step r).start rs := rfl
    rw [this, step_stopped s r h, ih]

theorem stepActions_eq (s : RWatcher) (r : Ready) (l : List Action)
    (h : (s.step r).trace = s.trace ++ l) : s.stepActions r = l := by
  unfold RWatcher.stepActions
  rw [h]
  simp

/-- The registration part of an iteration leaves the watch set alone or registers the
event's name. -/
theorem reactiveAdd_root (w : World) (s : RWatcher) (e : Event) :
    (s.reactiveAdd w e).watches = s.watches ∨ e.Name ∈ (s.reactiveAdd w e).watches := by
  by_cases h : w.statIsDir = true ∧ e.Op &&& fsnotify.Create ≠ 0
  · rw [reactiveAdd_walk w s e h.1 h.2]
    exact watchRecursive_root w s e.Name
  · rw [reactiveAdd_skip w s e (by
      by_cases hd : w.statIsDir = true
      · right
        by_contra hc
        exact h ⟨hd, hc⟩
      · left
        simpa using hd)]
    exact Or.inl rfl

theorem mem_filter_ne (W : List Path) (p q : Path) :
    q ∈ W.filter (fun x => x ≠ p) ↔ q ∈ W ∧ q ≠ p := by
  simp [List.mem_filter]

theorem step_done (s : RWatcher) (h : s.running = true) :
    s.step .done =
      { watches := [], running := false, fsClosed := true, eventsClosed := true,
        errorsClosed := true, doneClosed := true,
        trace := s.trace ++
          [Action.fsClose, Action.closeEvents, Action.closeErrors, Action.closeDone] } := by
  simp [RWatcher.step, h, fsnotifyClose, RWatcher.log]

/-! ## The claims -/

/-- C1: when `AddRecursive` returns nil, the watch set afterwards is the watch set before
together with exactly the directories of the subtree rooted at the name (the name itself
included when it is a directory).  The primitive `Add` has been called, with success, on
each of these directories in walk order and on nothing else, so no file is registered;
every entry of the subtree is then a file or a directory that could be read. -/
theorem addRecursive_registers_subtree (w : World) (s : RWatcher) (p : Path)
    (h : (RWatcher.AddRecursive w s p).2 = none) :
    (∀ q, q ∈ (RWatcher.AddRecursive w s p).1.watches ↔
      q ∈ s.watches ∨ q ∈ dirPaths (w.tree.entries p)) ∧
    (RWatcher.AddRecursive w s p).1.trace =
      s.trace ++ (dirPaths (w.tree.entries p)).map (fun q => Action.fsAdd q none) ∧
    (∀ q k, (q, k) ∈ w.tree.entries p → k = Kind.file ∨ k = Kind.dir none) := by
  rw [AddRecursive_eq, watchRecursive_eq] at h ⊢
  have hall := visitAll_none w _ s h
  rw [visitAll_ok w _ s hall]
  refine ⟨fun q => mem_addAll _ _ _, rfl, ?_⟩
  intro q k hqk
  have hf := hall (q, k) hqk
  cases k with
  | gone e => simp [failure] at hf
  | file => exact Or.inl rfl
  | dir r =>
    cases r with
    | some e => simp [failure] at hf
    | none => exact Or.inr rfl

theorem addRecursive_registers_subtree_witness :
    (RWatcher.AddRecursive worldR fresh "/r").2 = none ∧
    ((∀ q, q ∈ (RWatcher.AddRecursive worldR fresh "/r").1.watches ↔
      q ∈ fresh.watches ∨ q ∈ dirPaths (worldR.tree.entries "/r")) ∧
    (RWatcher.AddRecursive worldR fresh "/r").1.trace =
      fresh.trace ++ (dirPaths (worldR.tree.entries "/r")).map (fun q => Action.fsAdd q none) ∧
    (∀ q k, (q, k) ∈ worldR.tree.entries "/r" → k = Kind.file ∨ k = Kind.dir none)) :=
  ⟨by decide, addRecursive_registers_subtree worldR fresh "/r" (by decide)⟩

/-- C2: when, in walk order, the entries `pre` of the subtree all pass and the next entry
`x` fails with `err` (its `lstat` fails, or it is a directory that cannot be read, or it is
a directory on which the primitive `Add` fails), `AddRecursive` returns `err`; the watch
set afterwards is the watch set before together with exactly the directories of `pre`, so
nothing after `x` is registered and nothing registered is taken back; and the only calls
of the primitive `Add` are those on the directories of `pre` and the failed one on `x`. -/
theorem addRecursive_fails_fast (w : World) (s : RWatcher) (p : Path)
    (pre post : List (Path × Kind)) (x : Path × Kind) (err : OsErr)
    (hsplit : w.tree.entries p = pre ++ x :: post)
    (hpre : ∀ y ∈ pre, failure w y = none)
    (hx : failure w x = some err) :
    (RWatcher.AddRecursive w s p).2 = some (Error.sys err) ∧
    (∀ q, q ∈ (RWatcher.AddRecursive w s p).1.watches ↔ q ∈ s.watches ∨ q ∈ dirPaths pre) ∧
    (∀ q, q ∈ s.watches → q ∈ (RWatcher.AddRecursive w s p).1.watches) ∧
    (RWatcher.AddRecursive w s p).1.trace =
      s.trace ++ ((dirPaths pre).map fun q => Action.fsAdd q none) ++
        (match x.2 with
          | .dir none => [Action.fsAdd x.1 (some (Error.sys err))]
          | _ => []) := by
  rw [AddRecursive_eq, watchRecursive_eq, hsplit, visitAll_fail w pre post x err s hpre hx]
  refine ⟨rfl, fun q => mem_addAll _ _ _, ?_, rfl⟩
  intro q hq
  exact (mem_addAll _ _ _).2 (Or.inl hq)

theorem addRecursive_fails_fast_witness :
    worldFull.tree.entries "/r" =
      [("/r", Kind.dir none), ("/r/a", Kind.dir none), ("/r/a/f", Kind.file)] ++
        ("/r/b", Kind.dir none) :: [("/r/b/c", Kind.dir none)] ∧
    (∀ y ∈ [("/r", Kind.dir none), ("/r/a", Kind.dir none), ("/r/a/f", Kind.file)],
      failure worldFull y = none) ∧
    failure worldFull ("/r/b", Kind.dir none) = some 28 ∧
    (RWatcher.AddRecursive worldFull fresh "/r").2 = some (Error.sys 28) ∧
    (RWatcher.AddRecursive worldFull fresh "/r").1.watches = ["/r", "/r/a"] ∧
    (∀ q, q ∈ (RWatcher.AddRecursive worldFull fresh "/r").1.watches ↔
      q ∈ fresh.watches ∨
        q ∈ dirPaths [("/r", Kind.dir none), ("/r/a", Kind.dir none), ("/r/a/f", Kind.file)]) :=
  ⟨by decide, by decide, by decide,
    (addRecursive_fails_fast worldFull fresh "/r"
      [("/r", Kind.dir none), ("/r/a", Kind.dir none), ("/r/a/f", Kind.file)]
      [("/r/b/c", Kind.dir none)] ("/r/b", Kind.dir none) 28 (by decide) (by decide)
      (by decide)).1,
    by decide,
    (addRecursive_fails_fast worldFull fresh "/r"
      [("/r", Kind.dir none), ("/r/a", Kind.dir none), ("/r/a/f", Kind.file)]
      [("/r/b/c", Kind.dir none)] ("/r/b", Kind.dir none) 28 (by decide) (by decide)
      (by decide)).2.1⟩

/-- C3: while the loop runs, the events it sends on `Events` are exactly the events it
receives from the primitive service, in the order received and each unchanged (same name,
same operation bits), whatever `os.Stat`, the registration and the deregistration do for
each of them. -/
theorem start_forwards_events (rs : List Ready) (s : RWatcher)
    (hrun : s.running = true) (hnd : ∀ r ∈ rs, r.isDone = false) :
    (s.start rs).sentEvents = s.sentEvents ++ eventsOf rs ∧ (s.start rs).running = true := by
  induction rs generalizing s with
  | nil => simp [RWatcher.start, eventsOf, hrun]
  | cons r rs ih =>
    have hstart : s.start (r :: rs) = (s.step r).start rs := rfl
    have hrs : ∀ r ∈ rs, r.isDone = false := fun r hr => hnd r (List.mem_cons_of_mem _ hr)
    have hr := hnd r (List.mem_cons_self _ _)
    rw [hstart]
    cases r with
    | done => simp [Ready.isDone] at hr
    | event w e =>
      obtain ⟨h1, h2⟩ := ih (s.step (.event w e)) (step_event_running s w e hrun) hrs
      rw [h1, h2, step_event_sentEvents s w e hrun]
      simp [eventsOf]
    | error err =>
      obtain ⟨h1, h2⟩ := ih (s.step (.error err)) (step_error_running s err hrun) hrs
      rw [h1, h2, step_error_sentEvents]
      simp [eventsOf]

theorem start_forwards_events_witness :
    watchingR.running = true ∧
    (∀ r ∈ [Ready.event worldNewDir ⟨"/r/b", 1⟩, Ready.error (Error.sys 5),
        Ready.event worldGone ⟨"/r/a", 4⟩, Ready.event worldDenied ⟨"/r/d", 1⟩],
      r.isDone = false) ∧
    (watchingR.start [Ready.event worldNewDir ⟨"/r/b", 1⟩, Ready.error (Error.sys 5),
        Ready.event worldGone ⟨"/r/a", 4⟩, Ready.event worldDenied ⟨"/r/d", 1⟩]).sentEvents =
      [⟨"/r/b", 1⟩, ⟨"/r/a", 4⟩, ⟨"/r/d", 1⟩] :=
  ⟨by decide, by simp [Ready.isDone],
    (start_forwards_events _ watchingR (by decide) (by simp [Ready.isDone])).1⟩

/-- C4, counterexample: the watcher watches `/r` and `/r/a`; a `Create` event names
`/r/l`, a symbolic link to a directory: `os.Stat` follows the link and reports a directory,
the `lstat` of `filepath.Walk` does not; the registration returns nil, and after the
iteration `/r/l`, which stats as a directory, is not watched: the watch set is as before. -/
theorem create_event_on_link_to_directory_not_watched :
    watchingR.running = true ∧
    fsnotify.Create &&& fsnotify.Create ≠ 0 ∧
    worldLink.statIsDir = true ∧
    (RWatcher.watchRecursive worldLink watchingR "/r/l").2 = none ∧
    "/r/l" ∉ (watchingR.step (.event worldLink ⟨"/r/l", fsnotify.Create⟩)).watches ∧
    (watchingR.step (.event worldLink ⟨"/r/l", fsnotify.Create⟩)).watches = ["/r", "/r/a"] := by
  decide

/-- C4, amended: for an event with the `Create` bit whose name `os.Stat` reports as a
directory, when the registration succeeds, the names watched after the iteration are
exactly the names watched before and the directories that the walk, which does not follow
symbolic links, finds in the subtree rooted at the name, less the name itself when the
event also has the `Remove` bit.  So every directory the walk finds is watched (the name
itself excepted under the `Remove` bit).  Either `lstat` reports the name as a directory,
and then the name is among the directories found; or `lstat` reports it as something else
(a symbolic link to a directory), and then the walk finds no directory and the name is
watched afterwards only if it was before.  In the trace the calls of the primitive `Add`
on the directories found come before the send of the event, with only a call of the
primitive `Remove` in between. -/
theorem create_event_registers_subtree (s : RWatcher) (w : World) (e : Event)
    (hrun : s.running = true) (hc : e.Op &&& fsnotify.Create ≠ 0)
    (hd : w.statIsDir = true) (hok : (RWatcher.watchRecursive w s e.Name).2 = none) :
    (∀ q, q ∈ (s.step (.event w e)).watches ↔
      (q ∈ s.watches ∨ q ∈ dirPaths (w.tree.entries e.Name)) ∧
        (q ≠ e.Name ∨ e.Op &&& fsnotify.Remove = 0)) ∧
    (∀ q ∈ dirPaths (w.tree.entries e.Name),
      (q ≠ e.Name ∨ e.Op &&& fsnotify.Remove = 0) →
        q ∈ (s.step (.event w e)).watches) ∧
    ((∃ kids, w.tree = Root.dir none kids ∧ e.Name ∈ dirPaths (w.tree.entries e.Name)) ∨
      (w.tree = Root.file ∧ dirPaths (w.tree.entries e.Name) = [] ∧
        (e.Name ∈ (s.step (.event w e)).watches → e.Name ∈ s.watches))) ∧
    ∃ mid, (s.step (.event w e)).trace =
        s.trace ++ ((dirPaths (w.tree.entries e.Name)).map fun q => Action.fsAdd q none) ++
          mid ++ [Action.sendEvent e] ∧
      ∀ a ∈ mid, ∃ r, a = Action.fsRemove e.Name r := by
  have hall : ∀ y ∈ w.tree.entries e.Name, failure w y = none := by
    rw [watchRecursive_eq] at hok
    exact visitAll_none w _ s hok
  have hadd : s.reactiveAdd w e =
      { s with
          watches := addAll s.watches (dirPaths (w.tree.entries e.Name))
          trace := s.trace ++
            (dirPaths (w.tree.entries e.Name)).map fun q => Action.fsAdd q none } := by
    rw [reactiveAdd_walk w s e hd hc, watchRecursive_eq, visitAll_ok w _ s hall]
  have hiff : ∀ q, q ∈ (s.step (.event w e)).watches ↔
      (q ∈ s.watches ∨ q ∈ dirPaths (w.tree.entries e.Name)) ∧
        (q ≠ e.Name ∨ e.Op &&& fsnotify.Remove = 0) := by
    intro q
    rw [step_event s w e hrun, hadd]
    by_cases hr : e.Op &&& fsnotify.Remove ≠ 0
    · rw [reactiveRemove_set _ e hr]
      simp only [RWatcher.log]
      rw [mem_filter_ne, mem_addAll]
      constructor
      · exact fun h => ⟨h.1, Or.inl h.2⟩
      · rintro ⟨h1, h2 | h2⟩
        · exact ⟨h1, h2⟩
        · exact absurd h2 hr
    · have h0 : e.Op &&& fsnotify.Remove = 0 := by simpa using hr
      rw [reactiveRemove_skip _ e h0]
      simp only [RWatcher.log]
      rw [mem_addAll]
      constructor
      · exact fun h => ⟨h, Or.inr h0⟩
      · exact fun h => h.1
  refine ⟨hiff, fun q hq hcond => (hiff q).2 ⟨Or.inr hq, hcond⟩, ?_, ?_⟩
  · cases ht : w.tree with
    | gone err =>
      have hf := hall (e.Name, Kind.gone err) (by rw [ht]; simp [Root.entries])
      simp [failure] at hf
    | file =>
      right
      refine ⟨rfl, by simp [Root.entries, dirPaths], ?_⟩
      intro hin
      have h1 := ((hiff e.Name).1 hin).1
      rw [ht] at h1
      simpa [Root.entries, dirPaths] using h1
    | dir r kids =>
      cases r with
      | some err =>
        have hf := hall (e.Name, Kind.dir (some err)) (by rw [ht]; simp [Root.entries])
        simp [failure] at hf
      | none =>
        left
        exact ⟨kids, rfl, by simp [Root.entries, dirPaths]⟩
  · rw [step_event s w e hrun, hadd]
    by_cases hr : e.Op &&& fsnotify.Remove ≠ 0
    · rw [reactiveRemove_set _ e hr]
      refine ⟨[Action.fsRemove e.Name
        (if e.Name ∈ addAll s.watches (dirPaths (w.tree.entries e.Name)) then none
          else some (Error.sys errNonExistentWatch))], by simp [RWatcher.log], ?_⟩
      intro a ha
      exact ⟨_, List.mem_singleton.1 ha⟩
    · rw [reactiveRemove_skip _ e (by simpa using hr)]
      exact ⟨[], by simp [RWatcher.log], by simp⟩

theorem create_event_registers_subtree_witness :
    watchingR.running = true ∧
    fsnotify.Create &&& fsnotify.Create ≠ 0 ∧
    worldNewDir.statIsDir = true ∧
    (RWatcher.watchRecursive worldNewDir watchingR "/r/b").2 = none ∧
    watchingR.watches = ["/r", "/r/a"] ∧
    (watchingR.step (.event worldNewDir ⟨"/r/b", fsnotify.Create⟩)).watches =
      ["/r", "/r/a", "/r/b"] ∧
    (∀ q, q ∈ (watchingR.step (.event worldNewDir ⟨"/r/b", fsnotify.Create⟩)).watches ↔
      (q ∈ watchingR.watches ∨ q ∈ dirPaths (worldNewDir.tree.entries "/r/b")) ∧
        (q ≠ "/r/b" ∨ fsnotify.Create &&& fsnotify.Remove = 0)) ∧
    (∀ q ∈ dirPaths (worldNewDir.tree.entries "/r/b"),
      (q ≠ "/r/b" ∨ fsnotify.Create &&& fsnotify.Remove = 0) →
        q ∈ (watchingR.step (.event worldNewDir ⟨"/r/b", fsnotify.Create⟩)).watches) :=
  have h := create_event_registers_subtree watchingR worldNewDir ⟨"/r/b", fsnotify.Create⟩
    (by decide) (by decide) (by decide) (by decide)
  ⟨by decide, by decide, by decide, by decide, by decide, by decide, h.1, h.2.1⟩

/-- C5, counterexample: a `Rename` event (no `Remove` bit) names `/r/a`, which is watched
and which `os.Stat` can no longer find; the iteration only sends the event: the primitive
`Remove` is not called and `/r/a` stays watched. -/
theorem rename_of_vanished_path_not_deregistered :
    watchingR.running = true ∧
    worldGone.statFails = true ∧
    fsnotify.Rename &&& fsnotify.Remove = 0 ∧
    watchingR.stepActions (.event worldGone ⟨"/r/a", fsnotify.Rename⟩) =
      [Action.sendEvent ⟨"/r/a", fsnotify.Rename⟩] ∧
    (¬ ∃ r, Action.fsRemove "/r/a" r ∈
      watchingR.stepActions (.event worldGone ⟨"/r/a", fsnotify.Rename⟩)) ∧
    "/r/a" ∈ (watchingR.step (.event worldGone ⟨"/r/a", fsnotify.Rename⟩)).watches := by
  have h : watchingR.stepActions (.event worldGone ⟨"/r/a", fsnotify.Rename⟩) =
      [Action.sendEvent ⟨"/r/a", fsnotify.Rename⟩] := by decide
  refine ⟨by decide, by decide, by decide, h, ?_, by decide⟩
  rw [h]
  simp

/-- C5, amended: in an iteration on an event the loop calls the primitive `Remove` on the
event's name if and only if the event has the `Remove` bit, whatever `os.Stat` says; it
calls the primitive `Remove` on no other name. -/
theorem deregistration_iff_remove_bit (s : RWatcher) (w : World) (e : Event)
    (hrun : s.running = true) :
    ((∃ r, Action.fsRemove e.Name r ∈ s.stepActions (.event w e)) ↔
      e.Op &&& fsnotify.Remove ≠ 0) ∧
    (∀ q r, Action.fsRemove q r ∈ s.stepActions (.event w e) → q = e.Name) := by
  obtain ⟨ps, l, _, hl, hs⟩ := step_event_shape s w e hrun
  have htr := congrArg RWatcher.trace hs
  simp only at htr
  rw [stepActions_eq s _ _ htr]
  have hnl : ∀ q r, Action.fsRemove q r ∉ l := by
    intro q r hm
    obtain ⟨q2, r2, h2⟩ := hl _ hm
    cases h2
  by_cases hr : e.Op &&& fsnotify.Remove ≠ 0
  · simp only [if_pos hr]
    constructor
    · constructor
      · intro _; exact hr
      · intro _
        exact ⟨if e.Name ∈ addAll s.watches ps then none
          else some (Error.sys errNonExistentWatch), by simp⟩
    · intro q r hm
      simp only [List.mem_append, List.mem_singleton] at hm
      rcases hm with (hm | hm) | hm
      · exact absurd hm (hnl q r)
      · injection hm
      · cases hm
  · simp only [if_neg hr]
    constructor
    · constructor
      · rintro ⟨r, hm⟩
        simp only [List.append_nil, List.mem_append, List.mem_singleton] at hm
        rcases hm with hm | hm
        · exact absurd hm (hnl _ r)
        · cases hm
      · intro h; exact absurd h hr
    · intro q r hm
      simp only [List.append_nil, List.mem_append, List.mem_singleton] at hm
      rcases hm with hm | hm
      · exact absurd hm (hnl q r)
      · cases hm

theorem deregistration_iff_remove_bit_witness :
    watchingR.running = true ∧
    ((∃ r, Action.fsRemove "/r/a" r ∈
        watchingR.stepActions (.event worldGone ⟨"/r/a", fsnotify.Remove⟩)) ↔
      fsnotify.Remove &&& fsnotify.Remove ≠ 0) :=
  ⟨by decide,
    (deregistration_iff_remove_bit watchingR worldGone ⟨"/r/a", fsnotify.Remove⟩
      (by decide)).1⟩

/-- C6, counterexample: a `Create` event names the directory `/d`, whose registration
fails with error 13; after the iteration nothing has been sent on `Errors`. -/
theorem failed_registration_error_not_sent :
    fresh.running = true ∧
    fsnotify.Create &&& fsnotify.Create ≠ 0 ∧
    worldDenied.statIsDir = true ∧
    (RWatcher.watchRecursive worldDenied fresh "/d").2 = some (Error.sys 13) ∧
    Error.sys 13 ∉ (fresh.step (.event worldDenied ⟨"/d", fsnotify.Create⟩)).sentErrors ∧
    (fresh.step (.event worldDenied ⟨"/d", fsnotify.Create⟩)).sentErrors = [] := by
  decide

/-- C6, amended: for a `Create` event on a directory whose recursive registration fails with
`err`, the loop drops `err`: the iteration runs the registration, sends nothing on `Errors`,
leaves the loop running and still sends the event on `Events`. -/
theorem failed_registration_is_dropped (s : RWatcher) (w : World) (e : Event) (err : Error)
    (hrun : s.running = true) (hc : e.Op &&& fsnotify.Create ≠ 0)
    (hd : w.statIsDir = true) (hfail : (RWatcher.watchRecursive w s e.Name).2 = some err) :
    (s.step (.event w e)).sentErrors = s.sentErrors ∧
    (s.step (.event w e)).running = true ∧
    (s.step (.event w e)).sentEvents = s.sentEvents ++ [e] ∧
    (s.reactiveAdd w e, some err) = RWatcher.watchRecursive w s e.Name := by
  refine ⟨step_event_sentErrors s w e hrun, step_event_running s w e hrun,
    step_event_sentEvents s w e hrun, ?_⟩
  rw [reactiveAdd_walk w s e hd hc, ← hfail]

theorem failed_registration_is_dropped_witness :
    fresh.running = true ∧
    fsnotify.Create &&& fsnotify.Create ≠ 0 ∧
    worldDenied.statIsDir = true ∧
    (RWatcher.watchRecursive worldDenied fresh "/d").2 = some (Error.sys 13) ∧
    (fresh.step (.event worldDenied ⟨"/d", fsnotify.Create⟩)).sentErrors = fresh.sentErrors ∧
    (fresh.step (.event worldDenied ⟨"/d", fsnotify.Create⟩)).running = true ∧
    (fresh.step (.event worldDenied ⟨"/d", fsnotify.Create⟩)).sentEvents =
      fresh.sentEvents ++ [⟨"/d", fsnotify.Create⟩] :=
  have h := failed_registration_is_dropped fresh worldDenied ⟨"/d", fsnotify.Create⟩
    (Error.sys 13) (by decide) (by decide) (by decide) (by decide)
  ⟨by decide, by decide, by decide, by decide, h.1, h.2.1, h.2.2.1⟩

/-- C7: for an event with the `Remove` bit, after the iteration the event's name is not
watched, the loop still runs, the event has been sent on `Events` and nothing has been sent
on `Errors`; and when the primitive `Remove` returned an error (the name was not
registered), the watch set is as before the iteration.  The primitive `Remove` does return
an error when the name was not watched before and the event triggers no registration. -/
theorem remove_event_unwatches_name (s : RWatcher) (w : World) (e : Event)
    (hrun : s.running = true) (hr : e.Op &&& fsnotify.Remove ≠ 0) :
    e.Name ∉ (s.step (.event w e)).watches ∧
    (s.step (.event w e)).running = true ∧
    (s.step (.event w e)).sentEvents = s.sentEvents ++ [e] ∧
    (s.step (.event w e)).sentErrors = s.sentErrors ∧
    (∀ err, Action.fsRemove e.Name (some err) ∈ s.stepActions (.event w e) →
      (s.step (.event w e)).watches = s.watches) ∧
    (e.Name ∉ s.watches → (w.statIsDir = false ∨ e.Op &&& fsnotify.Create = 0) →
      s.stepActions (.event w e) =
        [Action.fsRemove e.Name (some (Error.sys errNonExistentWatch)), Action.sendEvent e]) := by
  refine ⟨?_, step_event_running s w e hrun, step_event_sentEvents s w e hrun,
    step_event_sentErrors s w e hrun, ?_, ?_⟩
  · rw [step_event s w e hrun, reactiveRemove_set _ e hr]
    simp only [RWatcher.log]
    rw [mem_filter_ne]
    exact fun h => h.2 rfl
  · intro err hm
    obtain ⟨ps, l, hadd, hl, hs⟩ := step_event_shape s w e hrun
    have htr := congrArg RWatcher.trace hs
    simp only at htr
    rw [stepActions_eq s _ _ htr, if_pos hr] at hm
    have hw := congrArg RWatcher.watches hadd
    simp only at hw
    have hnot : e.Name ∉ addAll s.watches ps := by
      intro hin
      simp only [List.mem_append, List.mem_singleton, if_pos hin] at hm
      rcases hm with (hm | hm) | hm
      · obtain ⟨q2, r2, h2⟩ := hl _ hm
        cases h2
      · cases hm
      · cases hm
    have hsame : addAll s.watches ps = s.watches := by
      rcases reactiveAdd_root w s e with h1 | h1
      · rw [← hw]; exact h1
      · rw [hw] at h1; exact absurd h1 hnot
    rw [hs]
    simp only [if_pos hr, hsame]
    rw [List.filter_eq_self]
    intro q hq
    simp only [ne_eq, decide_not, Bool.not_eq_true', decide_eq_false_iff_not]
    intro hqe
    rw [hsame] at hnot
    exact hnot (hqe ▸ hq)
  · intro hnot hskip
    have htr : (s.step (.event w e)).trace = s.trace ++
        [Action.fsRemove e.Name (some (Error.sys errNonExistentWatch)), Action.sendEvent e] := by
      rw [step_event s w e hrun, reactiveAdd_skip w s e hskip, reactiveRemove_set _ e hr]
      simp [RWatcher.log, hnot]
    exact stepActions_eq s _ _ htr

theorem remove_event_unwatches_name_witness :
    watchingR.running = true ∧
    fsnotify.Remove &&& fsnotify.Remove ≠ 0 ∧
    "/r/a" ∈ watchingR.watches ∧
    "/r/a" ∉ (watchingR.step (.event worldGone ⟨"/r/a", fsnotify.Remove⟩)).watches ∧
    Action.fsRemove "/r/x" (some (Error.sys errNonExistentWatch)) ∈
      watchingR.stepActions (.event worldGone ⟨"/r/x", fsnotify.Remove⟩) ∧
    (watchingR.step (.event worldGone ⟨"/r/x", fsnotify.Remove⟩)).watches =
      watchingR.watches :=
  ⟨by decide, by decide, by decide,
    (remove_event_unwatches_name watchingR worldGone ⟨"/r/a", fsnotify.Remove⟩
      (by decide) (by decide)).1,
    by decide,
    (remove_event_unwatches_name watchingR worldGone ⟨"/r/x", fsnotify.Remove⟩
      (by decide) (by decide)).2.2.2.2.1 (Error.sys errNonExistentWatch) (by decide)⟩

/-- C8: on the shutdown case the loop closes the primitive service, then `Events`, then
`Errors`, then returns (which closes `done`), in this order; whatever becomes ready after
that, the state stays as it is, so no event is sent on `Events` any more; and an iteration
ends the loop if and only if it is the shutdown case. -/
theorem shutdown_closes_and_ends (s : RWatcher) (hrun : s.running = true) :
    s.stepActions .done =
      [Action.fsClose, Action.closeEvents, Action.closeErrors, Action.closeDone] ∧
    (s.step .done).running = false ∧
    (s.step .done).fsClosed = true ∧
    (s.step .done).eventsClosed = true ∧
    (s.step .done).errorsClosed = true ∧
    (s.step .done).sentEvents = s.sentEvents ∧
    (∀ rs, (s.step .done).start rs = s.step .done) ∧
    (∀ rs, ((s.step .done).start rs).sentEvents = s.sentEvents) ∧
    (∀ r, (s.step r).running = false ↔ r.isDone = true) := by
  have hd := step_done s hrun
  have hstop : (s.step .done).running = false := by rw [hd]
  have hsent : (s.step .done).sentEvents = s.sentEvents := by
    rw [hd]
    simp [RWatcher.sentEvents, List.filterMap_append]
  refine ⟨stepActions_eq s _ _ (by rw [hd]), hstop, by rw [hd], by rw [hd], by rw [hd], hsent,
    fun rs => start_stopped _ rs hstop, ?_, ?_⟩
  · intro rs
    rw [start_stopped _ rs hstop, hsent]
  · intro r
    cases r with
    | done => simp [Ready.isDone, hstop]
    | event w e => simp [Ready.isDone, step_event_running s w e hrun]
    | error err => simp [Ready.isDone, step_error_running s err hrun]

theorem shutdown_closes_and_ends_witness :
    watchingRB.running = true ∧
    watchingRB.stepActions .done =
      [Action.fsClose, Action.closeEvents, Action.closeErrors, Action.closeDone] ∧
    ((watchingRB.step .done).start
        [Ready.event worldNewDir ⟨"/r/c", fsnotify.Create⟩]).sentEvents =
      watchingRB.sentEvents :=
  have h := shutdown_closes_and_ends watchingRB (by decide)
  ⟨by decide, h.1, h.2.2.2.2.2.2.2.1 _⟩

/-- C9: deregistration takes one name out and nothing else.  The method `Remove` returns
the result of the primitive `Remove` and leaves watched exactly the names watched before
other than its argument.  In an iteration on an event with the `Remove` bit, the names
watched afterwards are exactly the names watched once the registration part is over, other
than the event's name; every other name watched before the iteration stays watched; and
when the event has no `Create` bit the names watched afterwards are exactly the names
watched before other than the event's name. -/
theorem remove_is_not_recursive (s : RWatcher) (w : World) (e : Event)
    (hrun : s.running = true) (hr : e.Op &&& fsnotify.Remove ≠ 0) :
    RWatcher.Remove s e.Name = fsnotifyRemove s e.Name ∧
    (∀ q, q ∈ (RWatcher.Remove s e.Name).1.watches ↔ q ∈ s.watches ∧ q ≠ e.Name) ∧
    ((RWatcher.Remove s e.Name).2 = none ↔ e.Name ∈ s.watches) ∧
    (∀ q, q ∈ (s.step (.event w e)).watches ↔
      q ∈ (s.reactiveAdd w e).watches ∧ q ≠ e.Name) ∧
    (∀ q, q ≠ e.Name → q ∈ s.watches → q ∈ (s.step (.event w e)).watches) ∧
    (e.Op &&& fsnotify.Create = 0 →
      ∀ q, q ∈ (s.step (.event w e)).watches ↔ q ∈ s.watches ∧ q ≠ e.Name) := by
  have hstep : ∀ q, q ∈ (s.step (.event w e)).watches ↔
      q ∈ (s.reactiveAdd w e).watches ∧ q ≠ e.Name := by
    intro q
    rw [step_event s w e hrun, reactiveRemove_set _ e hr]
    simp only [RWatcher.log]
    exact mem_filter_ne _ _ _
  refine ⟨rfl, ?_, ?_, hstep, ?_, ?_⟩
  · intro q
    unfold RWatcher.Remove fsnotifyRemove
    by_cases hm : e.Name ∈ s.watches
    · simp only [hm, if_true, RWatcher.log]
      exact mem_filter_ne _ _ _
    · simp only [hm, if_false, RWatcher.log]
      constructor
      · intro hq
        exact ⟨hq, fun hqe => hm (hqe ▸ hq)⟩
      · exact fun h => h.1
  · unfold RWatcher.Remove fsnotifyRemove
    by_cases hm : e.Name ∈ s.watches
    · simp [hm]
    · simp [hm]
  · intro q hne hq
    rw [hstep]
    obtain ⟨ps, l, hadd, _⟩ := reactiveAdd_shape w s e
    rw [hadd]
    simp only
    exact ⟨(mem_addAll _ _ _).2 (Or.inl hq), hne⟩
  · intro hc q
    rw [hstep, reactiveAdd_skip w s e (Or.inr hc)]

theorem remove_is_not_recursive_witness :
    watchingRB.running = true ∧
    fsnotify.Remove &&& fsnotify.Remove ≠ 0 ∧
    watchingRB.watches = ["/r", "/r/a", "/r/b"] ∧
    (watchingRB.step (.event worldGone ⟨"/r/a", fsnotify.Remove⟩)).watches = ["/r", "/r/b"] ∧
    (RWatcher.Remove watchingRB "/r").1.watches = ["/r/a", "/r/b"] ∧
    (∀ q, q ∈ (watchingRB.step (.event worldGone ⟨"/r/a", fsnotify.Remove⟩)).watches ↔
      q ∈ watchingRB.watches ∧ q ≠ "/r/a") :=
  ⟨by decide, by decide, by decide, by decide, by decide,
    (remove_is_not_recursive watchingRB worldGone ⟨"/r/a", fsnotify.Remove⟩
      (by decide) (by decide)).2.2.2.2.2 (by decide)⟩

/-- C10: `Close` is not idempotent.  A first `Close` on a running loop returns nil, ends the
loop and leaves `done` closed; a second `Close`, whatever became ready in between, panics
on the send to the closed channel; and on every handle whose `done` channel is closed
`Close` panics, so it never returns (nil or an error) and it leaves the handle as it is. -/
theorem close_twice_panics (s : RWatcher) (rs : List Ready)
    (hrun : s.running = true) (hopen : s.doneClosed = false) :
    (RWatcher.Close s).2 = Outcome.returned none ∧
    (RWatcher.Close s).1.running = false ∧
    (RWatcher.Close s).1.doneClosed = true ∧
    (RWatcher.Close ((RWatcher.Close s).1.start rs)).2 = Outcome.panicked ∧
    (RWatcher.Close ((RWatcher.Close s).1.start rs)).2 ≠ Outcome.returned none ∧
    (∀ t : RWatcher, t.doneClosed = true →
      (RWatcher.Close t).2 = Outcome.panicked ∧
      (∀ err, (RWatcher.Close t).2 ≠ Outcome.returned err) ∧
      (RWatcher.Close t).1 = t) := by
  have hgen : ∀ t : RWatcher, t.doneClosed = true →
      (RWatcher.Close t).2 = Outcome.panicked ∧
      (∀ err, (RWatcher.Close t).2 ≠ Outcome.returned err) ∧
      (RWatcher.Close t).1 = t := by
    intro t ht
    have hc : RWatcher.Close t = (t, Outcome.panicked) := by
      simp [RWatcher.Close, ht]
    rw [hc]
    simp
  have h1 : RWatcher.Close s = (s.step .done, Outcome.returned none) := by
    simp [RWatcher.Close, hrun, hopen]
  have hd := step_done s hrun
  have hstop : (s.step .done).running = false := by rw [hd]
  have hclosed : (s.step .done).doneClosed = true := by rw [hd]
  have hs1 : (RWatcher.Close s).1 = s.step .done := by rw [h1]
  have h2 := hgen _ hclosed
  rw [hs1, start_stopped _ rs hstop]
  refine ⟨by rw [h1], hstop, hclosed, h2.1, ?_, hgen⟩
  rw [h2.1]
  simp

theorem close_twice_panics_witness :
    fresh.running = true ∧ fresh.doneClosed = false ∧
    (RWatcher.Close fresh).2 = Outcome.returned none ∧
    (RWatcher.Close (RWatcher.Close fresh).1).2 = Outcome.panicked :=
  have h := close_twice_panics fresh [] (by decide) (by decide)
  ⟨by decide, by decide, h.1, h.2.2.2.1⟩

end Rfsnotify
